import Mathlib

/-!
Verification of the imzML → Zarr conversion core of `pims-plugin-format-msi`.

The definitions below are shallow embeddings of the Python source files
`pims_plugin_format_msi/utils/imzml/convertor/backend.py`,
`pims_plugin_format_msi/utils/imzml/convertor/frontend.py`,
`pims_plugin_format_msi/utils/imzml/convertor.py` and
`pims_plugin_format_msi/utils/imzml/checker.py`.  Machine integers are
modelled as `Nat`/`Int` (the quantities involved — shapes, chunk sizes,
byte offsets and element counts — are nonnegative and far from any overflow
in the source), Python exceptions are modelled with `Except` over an
explicit error type, and the filesystem / Zarr destination store is
modelled explicitly where a claim is about it.
-/

namespace PimsMsi

/-- Python exception classes relevant to the converter, as raised and caught
by the source.  `baseException` stands for the `BaseException`s that are not
`Exception` subclasses (e.g. `KeyboardInterrupt`); every other constructor
is an `Exception` subclass in Python. -/
inductive PyErr where
  | valueError
  | keyError
  | typeError
  | indexError
  | stopIter
  | osError
  | otherException
  | baseException
deriving DecidableEq, Repr

/-! ## Chunk-shape planning (`BaseImzMLConvertor.intensity_chunks`, backend.py 305-343)

The chunk list is modelled exactly as in the source: a `List Nat` (in
`(c, z, y, x)` order) obtained from `zarr.util.normalize_chunks`, shrunk in a
`while True` loop.  `math.ceil(v / 2.0)` on a nonnegative integer is
`(v + 1) / 2` in `Nat`.  The unbounded `while` loop is modelled with an
explicit fuel parameter; `shrinkLoop` supplies `chunks.sum + 1` fuel, and
`shrinkGo_some` below proves this fuel is never exhausted when every entry of
the starting chunk list is positive (which is true of every chunk list
produced by `normalize_chunks` on a positive shape).  A `none` result of
`shrinkGo` corresponds to fuel exhaustion and arises for no input the source
can produce. -/

/-- Ceiling halving `math.ceil(v / 2.0)` for `v : Nat`. -/
def halveCeil (v : Nat) : Nat := (v + 1) / 2

/-- Inner scan of the shrink loop over the suffix of the chunk list starting
at absolute index `idx`: skip entries equal to `1`, return the first index
whose entry differs from `1`. -/
def findShrinkableAux : List Nat → Nat → Option Nat
  | [], _ => none
  | v :: rest, idx => if v = 1 then findShrinkableAux rest (idx + 1) else some idx

/-- Inner scan of the shrink loop (backend.py 328-334): starting at index
`start`, skip entries equal to `1` and return the first index whose entry can
be halved, or `none` when the scan runs off the end of the list (the
`idx == len(chunks)` case, which raises `ValueError`). -/
def findShrinkable (chunks : List Nat) (start : Nat) : Option Nat :=
  findShrinkableAux (chunks.drop start) start

/-- Halve (with ceiling) the entry at index `i`. -/
def halveAt (chunks : List Nat) (i : Nat) : List Nat :=
  chunks.set i (halveCeil (chunks.getD i 0))

/-- Per-chunk byte cost as computed by the source (backend.py 321):
`shape[0] * np.prod(chunks[1:]) * item_size`.  Note that the *full* channel
extent `shape[0]` is used, not `chunks[0]`. -/
def chunkCost (shape0 : Nat) (chunks : List Nat) (itemSize : Nat) : Nat :=
  shape0 * (chunks.drop 1).prod * itemSize

/-- One scan index per loop iteration: the source's
`min(1, (last_idx + 1) % len(chunks))` (backend.py 327). -/
def scanStart (lastIdx len : Nat) : Nat :=
  min 1 ((lastIdx + 1) % len)

/-- Fuel-indexed body of the `while True` shrink loop (backend.py 318-339).
Besides the final chunk list it returns the trace of axis indices halved, in
order (instrumentation used to state which axis each iteration targets; it
does not alter the computed chunks). -/
def shrinkGo (shape0 itemSize maxSize : Nat) :
    Nat → List Nat → Nat → Option (Except PyErr (List Nat × List Nat))
  | 0, _, _ => none
  | fuel + 1, chunks, lastIdx =>
    if chunkCost shape0 chunks itemSize < maxSize then
      some (.ok (chunks, []))
    else
      match findShrinkable chunks (scanStart lastIdx chunks.length) with
      | none =>
        -- raise ValueError("masses are too deep to find an appropriate chunks size")
        some (.error .valueError)
      | some i =>
        (shrinkGo shape0 itemSize maxSize fuel (halveAt chunks i) i).map
          (Except.map fun p => (p.1, i :: p.2))

/-- The shrink loop of `intensity_chunks`, with `last_idx = 1` initially as in
the source and fuel `chunks.sum + 1` (proved sufficient in `shrinkGo_some`). -/
def shrinkLoop (shape0 itemSize maxSize : Nat) (chunks : List Nat) :
    Option (Except PyErr (List Nat × List Nat)) :=
  shrinkGo shape0 itemSize maxSize (chunks.sum + 1) chunks 1

/-- Item size used by the planner (backend.py 309-312): the intensity item
size, raised to the m/z item size for processed files. -/
def plannerItemSize (isContinuous : Bool) (intItemSize mzItemSize : Nat) : Nat :=
  if isContinuous then intItemSize else max intItemSize mzItemSize

/-- The explicit-tuple branch of `zarr.util.normalize_chunks` (the branch the
source hits when the caller passes a chunk hint that is a tuple; entries that
are `-1` or `None` — here `none` — are replaced by the corresponding shape
dimension, a short hint is extended with the remaining shape dimensions, and a
hint longer than the shape raises `ValueError`). -/
def normalizeChunksExplicit (hint : List (Option Nat)) (shape : List Nat) :
    Except PyErr (List Nat) :=
  if shape.length < hint.length then .error .valueError
  else
    .ok (((hint ++ (shape.drop hint.length).map some).zip shape).map
      fun p => p.1.getD p.2)

/-- Chunk planning for an explicit chunk hint: `normalize_chunks` followed by
the shrink loop, as in `intensity_chunks` (backend.py 316-343).  The first
component of a successful result is the planned chunk shape, the second the
trace of halved axis indices. -/
def intensityChunksHint (shape : List Nat) (hint : List (Option Nat))
    (itemSize maxSize : Nat) : Option (Except PyErr (List Nat × List Nat)) :=
  match normalizeChunksExplicit hint shape with
  | .error e => some (.error e)
  | .ok chunks => shrinkLoop (shape.headD 0) itemSize maxSize chunks

/-! ## Spectrum records and the chunk indexer (`add_chunk_idx`, backend.py 106-156) -/

/-- One row of the `spectra` dataframe built by `get_data_from_parser`
(backend.py 80-88): 0-based grid coordinates, byte offsets of the m/z and
intensity runs in the `.ibd` payload, and the element count of the spectrum
(`parser.mzLengths`; m/z and intensity lengths coincide). -/
structure SpectrumRecord where
  x : Nat
  y : Nat
  z : Nat
  mz_offset : Nat
  int_offset : Nat
  length : Nat
deriving DecidableEq, Repr

/-- A spatial `(z, y, x)` index triple. -/
structure Idx3 where
  z : Nat
  y : Nat
  x : Nat
deriving DecidableEq, Repr

/-- `math.ceil(s / c)` for the per-axis chunk count (backend.py 131). -/
def ceilCount (s c : Nat) : Nat := (s + c - 1) / c

/-- Per-axis chunk counts `[ceil(s / c) for (s, c) in zip(spatial_shape, spatial_chunks)]`. -/
def chunkCounts (shape chunks : Idx3) : Idx3 :=
  ⟨ceilCount shape.z chunks.z, ceilCount shape.y chunks.y, ceilCount shape.x chunks.x⟩

/-- Per-axis chunk coordinate of a record: `coordinate // chunk` per axis
(backend.py 143), in `(z, y, x)` order. -/
def perChunkIdx (chunks : Idx3) (r : SpectrumRecord) : Idx3 :=
  ⟨r.z / chunks.z, r.y / chunks.y, r.x / chunks.x⟩

/-- Flat chunk id of a record (backend.py 136-145): the per-axis chunk
coordinate flattened with strides `[1, cc_z, cc_z * cc_y]` (z varies
fastest). -/
def flatChunkIdx (shape chunks : Idx3) (r : SpectrumRecord) : Nat :=
  let cc := chunkCounts shape chunks
  r.z / chunks.z + (r.y / chunks.y) * cc.z + (r.x / chunks.x) * (cc.z * cc.y)

/-- The `flat_to_idx` dictionary (backend.py 149-151): one insertion per
record, later records overwriting earlier ones with the same key.  The dict
is modelled as an association list onto which each insertion is prepended, so
`List.lookup` (which returns the first match) returns the latest binding. -/
def flatToIdx (shape chunks : Idx3) (records : List SpectrumRecord) :
    List (Nat × Idx3) :=
  records.foldl (fun m r => (flatChunkIdx shape chunks r, perChunkIdx chunks r) :: m) []

/-- Helper for `uniqueFirst`: keep elements not already seen. -/
def uniqueFirstAux : List Nat → List Nat → List Nat
  | [], _ => []
  | v :: rest, seen =>
    if v ∈ seen then uniqueFirstAux rest seen
    else v :: uniqueFirstAux rest (v :: seen)

/-- `pandas.Series.unique` on the `chunk_idx` column (backend.py 547):
distinct values in order of first appearance. -/
def uniqueFirst (l : List Nat) : List Nat := uniqueFirstAux l []

/-! ## The binary transcoder (`read_chunk_into` backend.py 159-226 and
`ProcessedImzMLConvertor.read_binary_data` backend.py 537-578)

A Zarr array is modelled by the facts `read_chunk_into` consumes —
`array.shape[0]` (channel extent), `array.shape[1:]`, `array.chunks[1:]` —
plus its contents as a total function from a channel index and a spatial
index to the stored element.  Element values are `Nat` (the claims under
verification only compare values for equality with the fill value `0`).
The payload file is abstracted by `file : Nat → Nat → Nat`, where
`file o i` is the `i`-th typed element produced by seeking to byte offset
`o` and reading with `np.fromfile`; its `i = 0, 1, 2, …` arguments model one
contiguous typed run per seek. -/

/-- A Zarr array as consumed by the transcoder. -/
structure ZArray where
  channels : Nat
  spatialShape : Idx3
  spatialChunks : Idx3
  data : Nat → Idx3 → Nat

/-- One sequential buffer assignment of `read_chunk_into` (backend.py
214-223): place the record's typed run at
`buffer[0:length, z - low_z, y - low_y, x - low_x]`.  The wrapped previous
buffer is consulted when the point is not covered, so a later record
overwrites an earlier one at a collision, as the source's loop does. -/
def placeRow (low : Idx3) (file : Nat → Nat → Nat)
    (offsetOf : SpectrumRecord → Nat) (buf : Nat → Idx3 → Nat)
    (r : SpectrumRecord) : Nat → Idx3 → Nat :=
  fun c q =>
    if q.z = r.z - low.z ∧ q.y = r.y - low.y ∧ q.x = r.x - low.x ∧ c < r.length
    then file (offsetOf r) c
    else buf c q

/-- The zero-initialised chunk buffer after all rows are placed
(backend.py 202-223). -/
def chunkBuffer (low : Idx3) (file : Nat → Nat → Nat)
    (offsetOf : SpectrumRecord → Nat) (spectra : List SpectrumRecord) :
    Nat → Idx3 → Nat :=
  spectra.foldl (placeRow low file offsetOf) (fun _ _ => 0)

/-- `read_chunk_into` (backend.py 159-226): compute the chunk's spatial box
`[low, high)` clipped to the array bounds for a trailing partial chunk, fill
the zeroed buffer from the records, then write the buffer over the chunk's
region in one region write (all channels, spatial box `[low, high)`). -/
def read_chunk_into (arr : ZArray) (file : Nat → Nat → Nat)
    (spectra : List SpectrumRecord) (chunkIdx : Idx3)
    (offsetOf : SpectrumRecord → Nat) : ZArray :=
  let s := arr.spatialShape
  let cw := arr.spatialChunks
  let low : Idx3 := ⟨chunkIdx.z * cw.z, chunkIdx.y * cw.y, chunkIdx.x * cw.x⟩
  let high : Idx3 :=
    ⟨min s.z ((chunkIdx.z + 1) * cw.z),
     min s.y ((chunkIdx.y + 1) * cw.y),
     min s.x ((chunkIdx.x + 1) * cw.x)⟩
  { arr with data := fun c q =>
      if low.z ≤ q.z ∧ q.z < high.z ∧ low.y ≤ q.y ∧ q.y < high.y ∧
          low.x ≤ q.x ∧ q.x < high.x
      then
        chunkBuffer low file offsetOf spectra c ⟨q.z - low.z, q.y - low.y, q.x - low.x⟩
      else arr.data c q }

/-- One assignment `lengths[0, row.z, row.y, row.x] = row.length`
(backend.py 552-553). -/
def setLength (buf : Nat → Idx3 → Nat) (r : SpectrumRecord) : Nat → Idx3 → Nat :=
  fun c q => if c = 0 ∧ q.z = r.z ∧ q.y = r.y ∧ q.x = r.x then r.length else buf c q

/-- The zero-initialised lengths buffer after all rows are written
(backend.py 541-553). -/
def lengthsBufFor (records : List SpectrumRecord) : Nat → Idx3 → Nat :=
  records.foldl setLength (fun _ _ => 0)

/-- One iteration of the chunk loop of
`ProcessedImzMLConvertor.read_binary_data` (backend.py 557-578): look the
flat id up in `flat_to_idx`, select the chunk's records, and run
`read_chunk_into` on the m/z array (from `mz_offset`) and then on the
intensity array (from `int_offset`). -/
def chunkStep (file : Nat → Nat → Nat) (shape chunks : Idx3)
    (records : List SpectrumRecord) (st : ZArray × ZArray) (flat : Nat) :
    ZArray × ZArray :=
  match List.lookup flat (flatToIdx shape chunks records) with
  | none => st
  | some pci =>
    let group := records.filter (fun r => flatChunkIdx shape chunks r = flat)
    (read_chunk_into st.1 file group pci (fun r => r.mz_offset),
     read_chunk_into st.2 file group pci (fun r => r.int_offset))

/-- `ProcessedImzMLConvertor.read_binary_data` (backend.py 537-578): fill the
lengths buffer from the records and write it to the lengths array at once;
then, chunk by chunk (flat ids in order of first appearance, grouped by the
`chunk_idx` column that `add_chunk_idx` assigned), transcode the m/z and
intensity runs.  Returns `(intensities, mzs, lengths)`. -/
def processed_read_binary_data (intens mzs zlengths : ZArray)
    (file : Nat → Nat → Nat) (records : List SpectrumRecord) :
    ZArray × ZArray × ZArray :=
  let shape := intens.spatialShape
  let chunks := intens.spatialChunks
  let chunkLst := uniqueFirst (records.map (flatChunkIdx shape chunks))
  let final := chunkLst.foldl (chunkStep file shape chunks records) (mzs, intens)
  (final.2, final.1, { zlengths with data := lengthsBufFor records })

/-! ## The `convert` entry points (backend.py 586-650, frontend.py 22-38)

The destination directory is modelled as `Option Store` for an arbitrary
contents type `Store` (`none` = the path does not exist).  The parsing and
conversion pipeline inside the `try` block is abstracted as a state
transformer `body` on the store; a failing run carries the Python exception
together with the partially written store at the moment of the raise. -/

/-- `convert` (backend.py 586-650).  The pre-check returns `False` with no
side effect when the destination exists; otherwise the directory is created
(`zarr.group` on a fresh `DirectoryStore`, modelled by `emptyGroup`) and
`dest_store.rmdir` is registered on the exit stack, so every exit except the
`stack.pop_all()` one removes the destination.  `ValueError`/`KeyError` and
any other `Exception` are caught and turn into `False`; a `BaseException`
that is not an `Exception` is not caught (the exit stack still removes the
directory while unwinding).  The result is the returned value (or the
escaping exception) paired with the final state of the destination path. -/
def backend_convert {Store : Type} (dest : Option Store) (emptyGroup : Store)
    (body : Store → Except (PyErr × Store) Store) :
    Except PyErr Bool × Option Store :=
  match dest with
  | some s => (.ok false, some s)
  | none =>
    match body emptyGroup with
    | .ok s => (.ok true, some s)
    | .error (e, _) =>
      match e with
      | .valueError => (.ok false, none)
      | .keyError => (.ok false, none)
      | .baseException => (.error .baseException, none)
      | _ => (.ok false, none)

/-- `ImzMLToZarrConvertor.convert` (frontend.py 22-38): looks up the
imzML/ibd pair; when `get_imzml_pair` returns `None` it logs an error and
falls through to `convert(*pair, ...)`, which raises `TypeError` while
unpacking `None` — before the backend entry point (and its destination
pre-check and exit stack) ever runs. -/
def frontend_convert {Store : Type} (pair : Option Unit) (dest : Option Store)
    (emptyGroup : Store) (body : Store → Except (PyErr × Store) Store) :
    Except PyErr Bool × Option Store :=
  match pair with
  | none => (.error .typeError, dest)
  | some _ => backend_convert dest emptyGroup body

/-- `BaseImzMLConvertor.__init__` followed by `run()` (backend.py 232-255,
361-365).  `__init__` only assigns attributes (no store effect) and then
validates `max_size`, raising `ValueError` when `max_size <= 0` — before
`run()` (metadata, planning, array creation, binary transcoding, abstracted
as `steps`) can touch the destination. -/
def convertor_construct_and_run {Store : Type} (maxSize : Int) (root : Store)
    (steps : Store → Except (PyErr × Store) Store) :
    Except (PyErr × Store) Store :=
  if maxSize ≤ 0 then .error (.valueError, root)
  else steps root

/-! ## The bulk-copy policy (`copy_array`, utils/imzml/convertor.py 24-25, 54-64) -/

/-- Byte size over which the whole structure is not copied in memory
(utils/imzml/convertor.py 25). -/
def DISK_COPY_THRESHOLD : Nat := 8 * 10 ^ 9

/-- How a bulk copy is staged: whole-array in memory, or streamed. -/
inductive CopyMode where
  | materialize
  | streamed
deriving DecidableEq, Repr

/-- An array as consumed by `copy_array`: shape, element byte size and flat
contents.  `nbytes`, as reported by Zarr, is the product of the shape with
the item size. -/
structure CopyArr where
  shape : List Nat
  itemsize : Nat
  cdata : Nat → Nat

/-- Total byte count of the array, as `source.nbytes` (Zarr). -/
def CopyArr.nbytes (a : CopyArr) : Nat := a.shape.prod * a.itemsize

/-- `copy_array` (utils/imzml/convertor.py 54-64): at most
`_DISK_COPY_THRESHOLD` bytes the source is loaded whole and assigned at once
(`destination[:] = source[:]`); above it the assignment streams chunk by
chunk (`destination[:] = source`).  Both branches copy the contents. -/
def copy_array (source destination : CopyArr) : CopyMode × CopyArr :=
  if source.nbytes ≤ DISK_COPY_THRESHOLD then
    (.materialize, { destination with cdata := source.cdata })
  else
    (.streamed, { destination with cdata := source.cdata })

/-- Modelled from the spec (claim C8, §4.4 bulk-copy policy): byte sizes
strictly below the threshold materialize, sizes at or above it stream.  This
definition follows the claim's words and is compared against `copy_array`,
which is translated from the source. -/
def spec_bulk_copy_mode (nbytes : Nat) : CopyMode :=
  if nbytes < DISK_COPY_THRESHOLD then .materialize else .streamed

/-! ## `check_uuid` (checker.py 21-69)

The externally produced pieces of the computation are the input space: what
`ibd.read(16).hex()` yields (or raises), and what the XML walk up to
`root.find(...)` plus `element.get('value')` yields (or raises).  The rest of
the body — brace stripping, hyphen removal, lowercasing, comparison, and the
exceptions the body itself raises — is translated directly. -/

/-- Outcomes of the external operations of `check_uuid`. -/
structure UuidCheckInput where
  /-- Result of `open(ibd_path).read(16).hex()`: the (lowercase) hex string,
  or the raised error (e.g. `OSError` when the file is missing). -/
  ibdRead : Except PyErr (List Char)
  /-- Result of `next(iterparse(...))` and `root.find(key)` and
  `element.get('value')`: raises `StopIteration` on an empty document or
  `OSError`/parse errors; otherwise `none` when no UUID element is found, or
  the element's optional `value` attribute. -/
  xmlValue : Except PyErr (Option (Option (List Char)))

/-- Body of the `try` block of `check_uuid` (checker.py 32-56), with each
Python raise carried as an `Except.error` past the remaining statements. -/
def check_uuid_body (inp : UuidCheckInput) : Except PyErr Bool :=
  match inp.ibdRead with
  | .error e => .error e
  | .ok ibd_uuid =>
    match inp.xmlValue with
    | .error e => .error e
    | .ok none => .error .valueError    -- raise ValueError('unable to find UUID')
    | .ok (some none) => .error .typeError  -- None[0]: NoneType not subscriptable
    | .ok (some (some tok)) =>
      match tok with
      | [] => .error .indexError        -- ''[0]: string index out of range
      | c0 :: _ =>
        let strippedRes : Except PyErr (List Char) :=
          if c0 = '\x7b' then
            if tok.getLast? = some '\x7d' then .ok ((tok.drop 1).dropLast)
            else .error .valueError     -- raise ValueError('unable to parse UUID')
          else .ok tok
        match strippedRes with
        | .error e => .error e
        | .ok stripped =>
          .ok (decide
            (((stripped.filter (fun c => c ≠ '-')).map Char.toLower) = ibd_uuid))

/-- `check_uuid` (checker.py 21-69): the body wrapped in the
`except StopIteration / OSError / ValueError / Exception` ladder, each clause
returning `False`.  Only a `BaseException` that is no `Exception` escapes the
ladder. -/
def check_uuid (inp : UuidCheckInput) : Except PyErr Bool :=
  match check_uuid_body inp with
  | .ok b => .ok b
  | .error .stopIter => .ok false       -- empty XML file
  | .error .osError => .ok false        -- file not found
  | .error .valueError => .ok false     -- parsing error
  | .error .baseException => .error .baseException
  | .error _ => .ok false               -- logged, unexpected exception caught

theorem findShrinkableAux_spec (l : List Nat) :
    ∀ idx j, findShrinkableAux l idx = some j →
      ∃ k, ∃ hk : k < l.length, j = idx + k ∧ l[k] ≠ 1 := by
  induction l with
  | nil => intro idx j h; cases h
  | cons v rest ih =>
    intro idx j h
    unfold findShrinkableAux at h
    by_cases hv : v = 1
    · rw [if_pos hv] at h
      obtain ⟨k, hk, rfl, hne⟩ := ih _ _ h
      exact ⟨k + 1, by simpa using Nat.succ_lt_succ hk, by omega, by simpa using hne⟩
    · rw [if_neg hv] at h
      cases h
      exact ⟨0, by simp, by omega, by simpa using hv⟩

theorem findShrinkable_spec (chunks : List Nat) (start i : Nat)
    (h : findShrinkable chunks start = some i) :
    ∃ hi : i < chunks.length, chunks[i] ≠ 1 := by
  obtain ⟨k, hk, rfl, hne⟩ := findShrinkableAux_spec _ _ _ h
  have hlen : start + k < chunks.length := by
    have := chunks.length_drop start
    omega
  refine ⟨hlen, ?_⟩
  rwa [List.getElem_drop] at hne

theorem halveCeil_lt {v : Nat} (h1 : 1 ≤ v) (h2 : v ≠ 1) : halveCeil v < v := by
  unfold halveCeil; omega

theorem halveCeil_pos {v : Nat} (h1 : 1 ≤ v) : 1 ≤ halveCeil v := by
  unfold halveCeil; omega

theorem halveAt_sum_lt (chunks : List Nat) (i : Nat)
    (hpos : ∀ v ∈ chunks, 1 ≤ v) (hi : i < chunks.length)
    (hne : chunks[i] ≠ 1) :
    (halveAt chunks i).sum < chunks.sum := by
  unfold halveAt
  rw [List.getD_eq_getElem chunks 0 hi]
  have hv1 : 1 ≤ chunks[i] := hpos _ (List.getElem_mem hi)
  have hlt : halveCeil chunks[i] < chunks[i] := halveCeil_lt hv1 hne
  have e1 := List.sum_set chunks i (halveCeil chunks[i])
  have e2 := List.sum_take_add_sum_drop chunks i
  rw [List.drop_eq_getElem_cons hi, List.sum_cons] at e2
  rw [e1, if_pos hi]
  omega

theorem halveAt_pos (chunks : List Nat) (i : Nat)
    (hpos : ∀ v ∈ chunks, 1 ≤ v) :
    ∀ v ∈ halveAt chunks i, 1 ≤ v := by
  intro v hv
  unfold halveAt at hv
  by_cases hi : i < chunks.length
  · rcases List.mem_or_eq_of_mem_set hv with h | h
    · exact hpos _ h
    · subst h
      rw [List.getD_eq_getElem chunks 0 hi]
      exact halveCeil_pos (hpos _ (List.getElem_mem hi))
  · rw [List.set_eq_of_length_le (by omega)] at hv
    exact hpos _ hv

theorem halveAt_length (chunks : List Nat) (i : Nat) :
    (halveAt chunks i).length = chunks.length := by
  unfold halveAt; simp

/-- Fuel sufficiency: with positive chunks and fuel exceeding the chunk sum,
the shrink loop never exhausts its fuel. -/
theorem shrinkGo_some (shape0 itemSize maxSize : Nat) :
    ∀ fuel chunks lastIdx, chunks.sum < fuel → (∀ v ∈ chunks, 1 ≤ v) →
      ∃ r, shrinkGo shape0 itemSize maxSize fuel chunks lastIdx = some r := by
  intro fuel
  induction fuel with
  | zero => intro chunks lastIdx hf; omega
  | succ fuel ih =>
    intro chunks lastIdx hf hpos
    unfold shrinkGo
    by_cases hc : chunkCost shape0 chunks itemSize < maxSize
    · exact ⟨_, by rw [if_pos hc]⟩
    · rw [if_neg hc]
      cases hfind : findShrinkable chunks (scanStart lastIdx chunks.length) with
      | none => exact ⟨_, rfl⟩
      | some i =>
        obtain ⟨hi, hne⟩ := findShrinkable_spec _ _ _ hfind
        have hlt := halveAt_sum_lt chunks i hpos hi hne
        obtain ⟨r, hr⟩ := ih (halveAt chunks i) i (by omega) (halveAt_pos chunks i hpos)
        exact ⟨Except.map (fun p => (p.1, i :: p.2)) r, by simp [hr]⟩

theorem findShrinkableAux_none (l : List Nat) :
    ∀ idx, findShrinkableAux l idx = none → ∀ k (hk : k < l.length), l[k] = 1 := by
  induction l with
  | nil => intro idx _ k hk; simp at hk
  | cons v rest ih =>
    intro idx h k hk
    unfold findShrinkableAux at h
    by_cases hv : v = 1
    · rw [if_pos hv] at h
      cases k with
      | zero => simpa using hv
      | succ k => simpa using ih _ h k (by simpa using Nat.lt_of_succ_lt_succ hk)
    · rw [if_neg hv] at h; cases h

theorem findShrinkable_none (chunks : List Nat) (start : Nat)
    (h : findShrinkable chunks start = none) :
    ∀ j, start ≤ j → ∀ hj : j < chunks.length, chunks[j] = 1 := by
  intro j hsj hj
  have hk : j - start < (chunks.drop start).length := by
    have := chunks.length_drop start; omega
  have h1 := findShrinkableAux_none _ _ h (j - start) hk
  rw [List.getElem_drop] at h1
  have h2 : chunks.getD (start + (j - start)) 0 = 1 := by
    rw [List.getD_eq_getElem _ _ (by omega)]; exact h1
  rw [Nat.add_sub_cancel' hsj] at h2
  rw [← List.getD_eq_getElem chunks 0 hj]
  exact h2

/-- When the scan (which always begins at index `0` or `1`) finds nothing to
halve, every chunk entry past the channel axis is `1`, so the spatial part of
the cost product collapses to `1`. -/
theorem drop_one_prod_eq_one (chunks : List Nat) (start : Nat) (hs : start ≤ 1)
    (h : findShrinkable chunks start = none) :
    (chunks.drop 1).prod = 1 := by
  apply List.prod_eq_one
  intro x hx
  obtain ⟨k, hk, hget⟩ := List.mem_iff_getElem.mp hx
  rw [List.getElem_drop] at hget
  have hlen : 1 + k < chunks.length := by
    have := chunks.length_drop 1; omega
  rw [← hget]
  exact findShrinkable_none chunks start h (1 + k) (by omega) hlen

theorem prod_pos_of_all_pos (l : List Nat) (hpos : ∀ v ∈ l, 1 ≤ v) :
    1 ≤ l.prod := by
  induction l with
  | nil => simp
  | cons v rest ih =>
    rw [List.prod_cons]
    have h1 := hpos v (List.mem_cons_self _ _)
    have h2 := ih fun w hw => hpos w (List.mem_cons_of_mem _ hw)
    exact Nat.one_le_iff_ne_zero.mpr (Nat.mul_ne_zero (by omega) (by omega))

/-- Every successful result of the shrink loop satisfies the budget strictly:
the returned chunk list's cost is below `maxSize`. -/
theorem shrinkGo_ok_cost (shape0 itemSize maxSize : Nat) :
    ∀ fuel chunks lastIdx ch tr,
      shrinkGo shape0 itemSize maxSize fuel chunks lastIdx = some (.ok (ch, tr)) →
      chunkCost shape0 ch itemSize < maxSize := by
  intro fuel
  induction fuel with
  | zero => intro chunks lastIdx ch tr h; cases h
  | succ fuel ih =>
    intro chunks lastIdx ch tr h
    unfold shrinkGo at h
    by_cases hc : chunkCost shape0 chunks itemSize < maxSize
    · rw [if_pos hc] at h
      cases h; assumption
    · rw [if_neg hc] at h
      cases hfind : findShrinkable chunks (scanStart lastIdx chunks.length) with
      | none => rw [hfind] at h; cases h
      | some i =>
        rw [hfind] at h
        obtain ⟨r, hr, hmap⟩ := Option.map_eq_some'.mp h
        cases r with
        | error e => simp [Except.map] at hmap
        | ok p =>
          simp only [Except.map, Except.ok.injEq] at hmap
          obtain ⟨hp1, -⟩ : p.1 = ch ∧ i :: p.2 = tr := Prod.mk.injEq .. ▸ hmap
          exact hp1 ▸ ih _ _ p.1 p.2 (by rw [hr])

/-- The shrink loop raises (`ValueError`, mapped to `ChunkBudgetExceeded` in
the spec's taxonomy) exactly when one pixel's full spectrum alone — the cost
with every spatial chunk dimension equal to `1` — does not fit the budget. -/
theorem shrinkGo_error_iff (shape0 itemSize maxSize : Nat) :
    ∀ fuel chunks lastIdx, chunks.sum < fuel → (∀ v ∈ chunks, 1 ≤ v) →
      (shrinkGo shape0 itemSize maxSize fuel chunks lastIdx =
          some (.error .valueError) ↔
        maxSize ≤ shape0 * itemSize) := by
  intro fuel
  induction fuel with
  | zero => intro chunks lastIdx hf; omega
  | succ fuel ih =>
    intro chunks lastIdx hf hpos
    unfold shrinkGo
    by_cases hc : chunkCost shape0 chunks itemSize < maxSize
    · rw [if_pos hc]
      constructor
      · intro h; cases h
      · intro hle
        exfalso
        have hprod : 1 ≤ (chunks.drop 1).prod :=
          prod_pos_of_all_pos _ fun v hv => hpos v (List.mem_of_mem_drop hv)
        have : shape0 * itemSize ≤ chunkCost shape0 chunks itemSize := by
          unfold chunkCost
          calc shape0 * itemSize = shape0 * 1 * itemSize := by ring
          _ ≤ shape0 * (chunks.drop 1).prod * itemSize := by
              exact Nat.mul_le_mul_right _ (Nat.mul_le_mul_left _ hprod)
        omega
    · rw [if_neg hc]
      cases hfind : findShrinkable chunks (scanStart lastIdx chunks.length) with
      | none =>
        constructor
        · intro _
          have hprod := drop_one_prod_eq_one chunks _ (Nat.min_le_left _ _) hfind
          unfold chunkCost at hc
          rw [hprod, Nat.mul_one] at hc
          omega
        · intro _; rfl
      | some i =>
        obtain ⟨hi, hne⟩ := findShrinkable_spec _ _ _ hfind
        have hlt := halveAt_sum_lt chunks i hpos hi hne
        have hres := ih (halveAt chunks i) i (by omega) (halveAt_pos chunks i hpos)
        constructor
        · intro h
          obtain ⟨r, hr, hmap⟩ := Option.map_eq_some'.mp h
          cases r with
          | ok p => simp [Except.map] at hmap
          | error e =>
            simp only [Except.map, Except.error.injEq] at hmap
            exact hres.mp (hmap ▸ hr)
        · intro hle
          show Option.map _ (shrinkGo shape0 itemSize maxSize fuel (halveAt chunks i) i)
              = some (Except.error PyErr.valueError)
          rw [hres.mpr hle]
          rfl

/-! ## Chunk indexer lemmas -/

theorem lt_div_succ_mul (a c : Nat) (h : 0 < c) : a < (a / c + 1) * c := by
  have h1 := Nat.div_add_mod a c
  have h2 := Nat.mod_lt a h
  calc a = c * (a / c) + a % c := (Nat.div_add_mod a c).symm
  _ < c * (a / c) + c := by omega
  _ = (a / c + 1) * c := by ring

theorem div_lt_ceilCount (a s c : Nat) (ha : a < s) (hc : 1 ≤ c) :
    a / c < ceilCount s c := by
  have e : s + c - 1 = (s - 1) + c := by omega
  unfold ceilCount
  rw [e, Nat.add_div_right _ hc]
  have := Nat.div_le_div_right (c := c) (show a ≤ s - 1 by omega)
  omega

theorem mixed_radix_inj (B C a a' b b' c c' : Nat) (ha : a < B) (ha' : a' < B)
    (hb : b < C) (hb' : b' < C)
    (h : a + b * B + c * (B * C) = a' + b' * B + c' * (B * C)) :
    a = a' ∧ b = b' ∧ c = c' := by
  have hB : 0 < B := by omega
  have hC : 0 < C := by omega
  have e : ∀ x y z : Nat, x + y * B + z * (B * C) = x + (y + z * C) * B := by
    intro x y z; ring
  rw [e a b c, e a' b' c'] at h
  have h1 : a = a' := by
    have := congrArg (· % B) h
    simpa [Nat.add_mul_mod_self_right, Nat.mod_eq_of_lt ha, Nat.mod_eq_of_lt ha']
      using this
  have h2 : b + c * C = b' + c' * C := by
    have := congrArg (· / B) h
    simpa [Nat.add_mul_div_right _ _ hB, Nat.div_eq_of_lt ha, Nat.div_eq_of_lt ha']
      using this
  have h3 : b = b' := by
    have := congrArg (· % C) h2
    simpa [Nat.add_mul_mod_self_right, Nat.mod_eq_of_lt hb, Nat.mod_eq_of_lt hb']
      using this
  refine ⟨h1, h3, ?_⟩
  have h4 : c * C = c' * C := by omega
  exact Nat.eq_of_mul_eq_mul_right hC h4

theorem flatChunkIdx_inj (shape chunks : Idx3) (r s : SpectrumRecord)
    (hcz : 1 ≤ chunks.z) (hcy : 1 ≤ chunks.y)
    (hrb : r.z < shape.z ∧ r.y < shape.y ∧ r.x < shape.x)
    (hsb : s.z < shape.z ∧ s.y < shape.y ∧ s.x < shape.x)
    (h : flatChunkIdx shape chunks r = flatChunkIdx shape chunks s) :
    perChunkIdx chunks r = perChunkIdx chunks s := by
  unfold flatChunkIdx at h
  have hr1 := div_lt_ceilCount r.z shape.z chunks.z hrb.1 hcz
  have hs1 := div_lt_ceilCount s.z shape.z chunks.z hsb.1 hcz
  have hr2 := div_lt_ceilCount r.y shape.y chunks.y hrb.2.1 hcy
  have hs2 := div_lt_ceilCount s.y shape.y chunks.y hsb.2.1 hcy
  obtain ⟨e1, e2, e3⟩ :=
    mixed_radix_inj (ceilCount shape.z chunks.z) (ceilCount shape.y chunks.y)
      _ _ _ _ _ _ hr1 hs1 hr2 hs2 h
  unfold perChunkIdx
  rw [e1, e2, e3]

theorem flatToIdx_append (shape chunks : Idx3) (l : List SpectrumRecord)
    (r : SpectrumRecord) :
    flatToIdx shape chunks (l ++ [r]) =
      (flatChunkIdx shape chunks r, perChunkIdx chunks r) :: flatToIdx shape chunks l := by
  unfold flatToIdx
  rw [List.foldl_append]
  rfl

theorem flatToIdx_lookup (shape chunks : Idx3) (records : List SpectrumRecord)
    (hinj : ∀ r ∈ records, ∀ s ∈ records,
      flatChunkIdx shape chunks r = flatChunkIdx shape chunks s →
      perChunkIdx chunks r = perChunkIdx chunks s) :
    ∀ r ∈ records,
      List.lookup (flatChunkIdx shape chunks r) (flatToIdx shape chunks records)
        = some (perChunkIdx chunks r) := by
  induction records using List.reverseRecOn with
  | nil => intro r hr; cases hr
  | append_singleton l last ih =>
    intro r hr
    rw [flatToIdx_append]
    by_cases hk : flatChunkIdx shape chunks r = flatChunkIdx shape chunks last
    · have hpc := hinj r hr last (by simp) hk
      rw [List.lookup_cons]
      simp [hk, hpc]
    · have hrl : r ∈ l := by
        rcases List.mem_append.mp hr with h | h
        · exact h
        · exfalso; apply hk; rw [List.mem_singleton.mp h]
      rw [List.lookup_cons]
      have hbeq : (flatChunkIdx shape chunks r == flatChunkIdx shape chunks last) = false := by
        simpa using hk
      rw [hbeq]
      exact ih
        (fun a ha b hb hab =>
          hinj a (List.mem_append_left _ ha) b (List.mem_append_left _ hb) hab)
        r hrl

/-! ## Transcoder lemmas -/

theorem between_iff_div_eq (a c i s : Nat) (hc : 1 ≤ c) (ha : a < s) :
    (i * c ≤ a ∧ a < min s ((i + 1) * c)) ↔ a / c = i := by
  constructor
  · rintro ⟨h1, h2⟩
    exact Nat.div_eq_of_lt_le h1 (lt_of_lt_of_le h2 (min_le_right _ _))
  · rintro rfl
    exact ⟨Nat.div_mul_le_self a c, lt_min ha (lt_div_succ_mul a c hc)⟩

theorem foldl_placeRow_eq (low : Idx3) (file : Nat → Nat → Nat)
    (off : SpectrumRecord → Nat) (c : Nat) (p : Idx3) :
    ∀ (rows : List SpectrumRecord) (b : Nat → Idx3 → Nat),
      (∀ s ∈ rows,
        ¬(p.z = s.z - low.z ∧ p.y = s.y - low.y ∧ p.x = s.x - low.x ∧ c < s.length)) →
      rows.foldl (placeRow low file off) b c p = b c p := by
  intro rows
  induction rows with
  | nil => intro b _; rfl
  | cons s rest ih =>
    intro b h
    rw [List.foldl_cons, ih _ (fun t ht => h t (List.mem_cons_of_mem _ ht))]
    unfold placeRow
    rw [if_neg (h s (List.mem_cons_self _ _))]

theorem chunkBuffer_zero (low : Idx3) (file : Nat → Nat → Nat)
    (off : SpectrumRecord → Nat) (rows : List SpectrumRecord) (c : Nat) (p : Idx3)
    (h : ∀ s ∈ rows,
      ¬(p.z = s.z - low.z ∧ p.y = s.y - low.y ∧ p.x = s.x - low.x ∧ c < s.length)) :
    chunkBuffer low file off rows c p = 0 := by
  unfold chunkBuffer
  rw [foldl_placeRow_eq low file off c p rows _ h]

theorem foldl_setLength_eq (c : Nat) (p : Idx3) :
    ∀ (rows : List SpectrumRecord) (b : Nat → Idx3 → Nat),
      (∀ s ∈ rows, ¬(c = 0 ∧ p.z = s.z ∧ p.y = s.y ∧ p.x = s.x)) →
      rows.foldl setLength b c p = b c p := by
  intro rows
  induction rows with
  | nil => intro b _; rfl
  | cons s rest ih =>
    intro b h
    rw [List.foldl_cons, ih _ (fun t ht => h t (List.mem_cons_of_mem _ ht))]
    unfold setLength
    rw [if_neg (h s (List.mem_cons_self _ _))]

theorem lengthsBufFor_eq (r : SpectrumRecord) :
    ∀ (rows : List SpectrumRecord) (b : Nat → Idx3 → Nat), r ∈ rows →
      (∀ s ∈ rows, s.z = r.z → s.y = r.y → s.x = r.x → s = r) →
      rows.foldl setLength b 0 ⟨r.z, r.y, r.x⟩ = r.length := by
  intro rows
  induction rows with
  | nil => intro b hr; cases hr
  | cons s rest ih =>
    intro b hr huniq
    by_cases hmem : r ∈ rest
    · rw [List.foldl_cons]
      exact ih _ hmem (fun t ht => huniq t (List.mem_cons_of_mem _ ht))
    · have hrs : r = s := by
        rcases List.mem_cons.mp hr with h | h
        · exact h
        · exact absurd h hmem
      subst hrs
      rw [List.foldl_cons]
      rw [foldl_setLength_eq 0 ⟨r.z, r.y, r.x⟩ rest (setLength b r) ?_]
      · unfold setLength
        rw [if_pos ⟨rfl, rfl, rfl, rfl⟩]
      · intro t ht hc
        have : t = r := huniq t (List.mem_cons_of_mem _ ht) hc.2.1.symm hc.2.2.1.symm hc.2.2.2.symm
        exact hmem (this ▸ ht)

theorem read_chunk_into_spatialShape (arr : ZArray) (file : Nat → Nat → Nat)
    (sp : List SpectrumRecord) (ci : Idx3) (off : SpectrumRecord → Nat) :
    (read_chunk_into arr file sp ci off).spatialShape = arr.spatialShape := rfl

theorem read_chunk_into_spatialChunks (arr : ZArray) (file : Nat → Nat → Nat)
    (sp : List SpectrumRecord) (ci : Idx3) (off : SpectrumRecord → Nat) :
    (read_chunk_into arr file sp ci off).spatialChunks = arr.spatialChunks := rfl

/-- A region write for chunk coordinate `ci` leaves every in-bounds point
whose per-axis chunk coordinate differs from `ci` unchanged. -/
theorem read_chunk_into_untouched (arr : ZArray) (file : Nat → Nat → Nat)
    (sp : List SpectrumRecord) (ci : Idx3) (off : SpectrumRecord → Nat)
    (shape chunks : Idx3) (hsh : arr.spatialShape = shape)
    (hch : arr.spatialChunks = chunks)
    (hcz : 1 ≤ chunks.z) (hcy : 1 ≤ chunks.y) (hcx : 1 ≤ chunks.x)
    (c : Nat) (q : Idx3)
    (hq : q.z < shape.z ∧ q.y < shape.y ∧ q.x < shape.x)
    (hne : ¬(q.z / chunks.z = ci.z ∧ q.y / chunks.y = ci.y ∧ q.x / chunks.x = ci.x)) :
    (read_chunk_into arr file sp ci off).data c q = arr.data c q := by
  subst hsh hch
  dsimp only [read_chunk_into]
  rw [if_neg]
  rintro ⟨h1, h2, h3, h4, h5, h6⟩
  exact hne
    ⟨(between_iff_div_eq q.z arr.spatialChunks.z ci.z arr.spatialShape.z hcz hq.1).mp ⟨h1, h2⟩,
     (between_iff_div_eq q.y arr.spatialChunks.y ci.y arr.spatialShape.y hcy hq.2.1).mp ⟨h3, h4⟩,
     (between_iff_div_eq q.x arr.spatialChunks.x ci.x arr.spatialShape.x hcx hq.2.2).mp ⟨h5, h6⟩⟩

/-- A region write for the chunk containing record `r`, whose group only
holds rows of that chunk and at most one row (of length at most `c`) per
pixel, leaves `r`'s pixel at fill value `0` at every channel index `c` at or
beyond the lengths of the rows occupying that pixel. -/
theorem read_chunk_into_pad (arr : ZArray) (file : Nat → Nat → Nat)
    (group : List SpectrumRecord) (ci : Idx3) (off : SpectrumRecord → Nat)
    (shape chunks : Idx3) (hsh : arr.spatialShape = shape)
    (hch : arr.spatialChunks = chunks)
    (hcz : 1 ≤ chunks.z) (hcy : 1 ≤ chunks.y) (hcx : 1 ≤ chunks.x)
    (r : SpectrumRecord) (c : Nat)
    (hrb : r.z < shape.z ∧ r.y < shape.y ∧ r.x < shape.x)
    (hci : ci = ⟨r.z / chunks.z, r.y / chunks.y, r.x / chunks.x⟩)
    (hglow : ∀ s ∈ group, ci.z * chunks.z ≤ s.z ∧ ci.y * chunks.y ≤ s.y ∧
      ci.x * chunks.x ≤ s.x)
    (hglen : ∀ t ∈ group, t.z = r.z → t.y = r.y → t.x = r.x → t.length ≤ c) :
    (read_chunk_into arr file group ci off).data c ⟨r.z, r.y, r.x⟩ = 0 := by
  subst hsh hch
  dsimp only [read_chunk_into]
  rw [if_pos]
  · apply chunkBuffer_zero
    intro t ht hcol
    dsimp only at hcol
    obtain ⟨hlz, hly, hlx⟩ := hglow t ht
    have hrz : ci.z * arr.spatialChunks.z ≤ r.z := by
      rw [hci]; exact Nat.div_mul_le_self r.z arr.spatialChunks.z
    have hry : ci.y * arr.spatialChunks.y ≤ r.y := by
      rw [hci]; exact Nat.div_mul_le_self r.y arr.spatialChunks.y
    have hrx : ci.x * arr.spatialChunks.x ≤ r.x := by
      rw [hci]; exact Nat.div_mul_le_self r.x arr.spatialChunks.x
    obtain ⟨e1, e2, e3, e4⟩ := hcol
    have htz : t.z = r.z := by omega
    have hty : t.y = r.y := by omega
    have htx : t.x = r.x := by omega
    have := hglen t ht htz hty htx
    omega
  · subst hci
    refine ⟨Nat.div_mul_le_self r.z arr.spatialChunks.z,
      lt_min hrb.1 (lt_div_succ_mul r.z arr.spatialChunks.z hcz),
      Nat.div_mul_le_self r.y arr.spatialChunks.y,
      lt_min hrb.2.1 (lt_div_succ_mul r.y arr.spatialChunks.y hcy),
      Nat.div_mul_le_self r.x arr.spatialChunks.x,
      lt_min hrb.2.2 (lt_div_succ_mul r.x arr.spatialChunks.x hcx)⟩

theorem lookup_mem {β : Type} (k : Nat) (v : β) :
    ∀ l : List (Nat × β), List.lookup k l = some v → (k, v) ∈ l := by
  intro l
  induction l with
  | nil => intro h; cases h
  | cons p rest ih =>
    intro h
    obtain ⟨k', v'⟩ := p
    rw [List.lookup_cons] at h
    by_cases hk : k = k'
    · subst hk
      simp only [beq_self_eq_true] at h
      cases h
      exact List.mem_cons_self _ _
    · have hbeq : (k == k') = false := by simpa using hk
      rw [hbeq] at h
      exact List.mem_cons_of_mem _ (ih h)

theorem flatToIdx_mem (shape chunks : Idx3) (records : List SpectrumRecord) :
    ∀ kv ∈ flatToIdx shape chunks records, ∃ s ∈ records,
      kv.1 = flatChunkIdx shape chunks s ∧ kv.2 = perChunkIdx chunks s := by
  induction records using List.reverseRecOn with
  | nil => intro kv hkv; cases hkv
  | append_singleton l last ih =>
    intro kv hkv
    rw [flatToIdx_append] at hkv
    rcases List.mem_cons.mp hkv with h | h
    · exact ⟨last, by simp, by rw [h], by rw [h]⟩
    · obtain ⟨s, hs, h1, h2⟩ := ih kv h
      exact ⟨s, List.mem_append_left _ hs, h1, h2⟩

theorem flatChunkIdx_congr (shape chunks : Idx3) (a b : SpectrumRecord)
    (h : perChunkIdx chunks a = perChunkIdx chunks b) :
    flatChunkIdx shape chunks a = flatChunkIdx shape chunks b := by
  have h1 : a.z / chunks.z = b.z / chunks.z := congrArg Idx3.z h
  have h2 : a.y / chunks.y = b.y / chunks.y := congrArg Idx3.y h
  have h3 : a.x / chunks.x = b.x / chunks.x := congrArg Idx3.x h
  unfold flatChunkIdx
  rw [h1, h2, h3]

theorem uniqueFirstAux_mem (l : List Nat) :
    ∀ seen x, x ∈ uniqueFirstAux l seen ↔ x ∈ l ∧ x ∉ seen := by
  induction l with
  | nil => intro seen x; simp [uniqueFirstAux]
  | cons v rest ih =>
    intro seen x
    unfold uniqueFirstAux
    by_cases hv : v ∈ seen
    · rw [if_pos hv, ih]
      constructor
      · rintro ⟨h1, h2⟩; exact ⟨List.mem_cons_of_mem _ h1, h2⟩
      · rintro ⟨h1, h2⟩
        rcases List.mem_cons.mp h1 with h | h
        · exact absurd (h ▸ hv) h2
        · exact ⟨h, h2⟩
    · rw [if_neg hv]
      constructor
      · intro h
        rcases List.mem_cons.mp h with h | h
        · exact ⟨h ▸ List.mem_cons_self _ _, h ▸ hv⟩
        · obtain ⟨h1, h2⟩ := (ih (v :: seen) x).mp h
          exact ⟨List.mem_cons_of_mem _ h1,
            fun hx => h2 (List.mem_cons_of_mem _ hx)⟩
      · rintro ⟨h1, h2⟩
        rcases List.mem_cons.mp h1 with h | h
        · exact h ▸ List.mem_cons_self _ _
        · by_cases hxv : x = v
          · exact hxv ▸ List.mem_cons_self _ _
          · exact List.mem_cons_of_mem _ ((ih (v :: seen) x).mpr
              ⟨h, fun hx => (List.mem_cons.mp hx).elim hxv h2⟩)

theorem uniqueFirstAux_nodup (l : List Nat) :
    ∀ seen, (uniqueFirstAux l seen).Nodup := by
  induction l with
  | nil => intro seen; simp [uniqueFirstAux]
  | cons v rest ih =>
    intro seen
    unfold uniqueFirstAux
    by_cases hv : v ∈ seen
    · rw [if_pos hv]; exact ih seen
    · rw [if_neg hv]
      refine List.nodup_cons.mpr ⟨?_, ih _⟩
      rw [uniqueFirstAux_mem]
      rintro ⟨-, habs⟩
      exact habs (List.mem_cons_self _ _)

theorem uniqueFirst_mem (l : List Nat) (x : Nat) : x ∈ uniqueFirst l ↔ x ∈ l := by
  unfold uniqueFirst
  rw [uniqueFirstAux_mem]
  simp

theorem uniqueFirst_nodup (l : List Nat) : (uniqueFirst l).Nodup :=
  uniqueFirstAux_nodup l []

theorem chunkStep_spatialShape_fst (file : Nat → Nat → Nat) (shape chunks : Idx3)
    (records : List SpectrumRecord) (st : ZArray × ZArray) (g : Nat) :
    (chunkStep file shape chunks records st g).1.spatialShape = st.1.spatialShape ∧
    (chunkStep file shape chunks records st g).1.spatialChunks = st.1.spatialChunks ∧
    (chunkStep file shape chunks records st g).2.spatialShape = st.2.spatialShape ∧
    (chunkStep file shape chunks records st g).2.spatialChunks = st.2.spatialChunks := by
  unfold chunkStep
  cases List.lookup g (flatToIdx shape chunks records) with
  | none => exact ⟨rfl, rfl, rfl, rfl⟩
  | some pci => exact ⟨rfl, rfl, rfl, rfl⟩

/-- Chunks other than the one containing record `r` never write to `r`'s
pixel: folding the chunk loop over any list of flat ids avoiding `r`'s own
flat id leaves both arrays unchanged at `r`'s pixel. -/
theorem foldl_chunkStep_preserve (file : Nat → Nat → Nat) (shape chunks : Idx3)
    (records : List SpectrumRecord) (r : SpectrumRecord) (c : Nat)
    (hcz : 1 ≤ chunks.z) (hcy : 1 ≤ chunks.y) (hcx : 1 ≤ chunks.x)
    (hrb : r.z < shape.z ∧ r.y < shape.y ∧ r.x < shape.x) :
    ∀ (gs : List Nat) (st : ZArray × ZArray),
      (∀ g ∈ gs, g ≠ flatChunkIdx shape chunks r) →
      st.1.spatialShape = shape → st.1.spatialChunks = chunks →
      st.2.spatialShape = shape → st.2.spatialChunks = chunks →
      (gs.foldl (chunkStep file shape chunks records) st).1.data c ⟨r.z, r.y, r.x⟩
          = st.1.data c ⟨r.z, r.y, r.x⟩ ∧
        (gs.foldl (chunkStep file shape chunks records) st).2.data c ⟨r.z, r.y, r.x⟩
          = st.2.data c ⟨r.z, r.y, r.x⟩ := by
  intro gs
  induction gs with
  | nil => intro st _ _ _ _ _; exact ⟨rfl, rfl⟩
  | cons g gs' ih =>
    intro st hgs h1 h2 h3 h4
    rw [List.foldl_cons]
    obtain ⟨f1, f2, f3, f4⟩ := chunkStep_spatialShape_fst file shape chunks records st g
    have hstep : (chunkStep file shape chunks records st g).1.data c ⟨r.z, r.y, r.x⟩
        = st.1.data c ⟨r.z, r.y, r.x⟩ ∧
        (chunkStep file shape chunks records st g).2.data c ⟨r.z, r.y, r.x⟩
        = st.2.data c ⟨r.z, r.y, r.x⟩ := by
      unfold chunkStep
      cases hl : List.lookup g (flatToIdx shape chunks records) with
      | none => exact ⟨rfl, rfl⟩
      | some pci =>
        obtain ⟨s, hs, hk, hv⟩ := flatToIdx_mem shape chunks records _ (lookup_mem g pci _ hl)
        have hne : ¬(r.z / chunks.z = pci.z ∧ r.y / chunks.y = pci.y ∧
            r.x / chunks.x = pci.x) := by
          rintro ⟨d1, d2, d3⟩
          apply hgs g (List.mem_cons_self _ _)
          have hk' : g = flatChunkIdx shape chunks s := hk
          have hv' : pci = perChunkIdx chunks s := hv
          rw [hk']
          apply flatChunkIdx_congr
          rw [← hv']
          unfold perChunkIdx
          rw [d1, d2, d3]
        constructor
        · exact read_chunk_into_untouched st.1 file _ pci _ shape chunks h1 h2
            hcz hcy hcx c ⟨r.z, r.y, r.x⟩ hrb hne
        · exact read_chunk_into_untouched st.2 file _ pci _ shape chunks h3 h4
            hcz hcy hcx c ⟨r.z, r.y, r.x⟩ hrb hne
    have := ih (chunkStep file shape chunks records st g)
      (fun t ht => hgs t (List.mem_cons_of_mem _ ht))
      (f1.trans h1) (f2.trans h2) (f3.trans h3) (f4.trans h4)
    exact ⟨this.1.trans hstep.1, this.2.trans hstep.2⟩

/-- Processing record `r`'s own chunk puts the fill value `0` at every
channel index at or past `r`'s length at `r`'s pixel, in both arrays. -/
theorem chunkStep_at_own (file : Nat → Nat → Nat) (shape chunks : Idx3)
    (records : List SpectrumRecord) (st : ZArray × ZArray)
    (r : SpectrumRecord) (c : Nat)
    (hcz : 1 ≤ chunks.z) (hcy : 1 ≤ chunks.y) (hcx : 1 ≤ chunks.x)
    (hbound : ∀ s ∈ records, s.z < shape.z ∧ s.y < shape.y ∧ s.x < shape.x)
    (hdist : ∀ a ∈ records, ∀ b ∈ records, a.z = b.z → a.y = b.y → a.x = b.x → a = b)
    (hr : r ∈ records) (hc : r.length ≤ c)
    (h1 : st.1.spatialShape = shape) (h2 : st.1.spatialChunks = chunks)
    (h3 : st.2.spatialShape = shape) (h4 : st.2.spatialChunks = chunks) :
    (chunkStep file shape chunks records st (flatChunkIdx shape chunks r)).1.data
        c ⟨r.z, r.y, r.x⟩ = 0 ∧
      (chunkStep file shape chunks records st (flatChunkIdx shape chunks r)).2.data
        c ⟨r.z, r.y, r.x⟩ = 0 := by
  have hinj : ∀ a ∈ records, ∀ b ∈ records,
      flatChunkIdx shape chunks a = flatChunkIdx shape chunks b →
      perChunkIdx chunks a = perChunkIdx chunks b := fun a ha b hb hab =>
    flatChunkIdx_inj shape chunks a b hcz hcy (hbound a ha) (hbound b hb) hab
  have hlk := flatToIdx_lookup shape chunks records hinj r hr
  unfold chunkStep
  rw [hlk]
  have hglow : ∀ s ∈ records.filter
      (fun t => flatChunkIdx shape chunks t = flatChunkIdx shape chunks r),
      (perChunkIdx chunks r).z * chunks.z ≤ s.z ∧
      (perChunkIdx chunks r).y * chunks.y ≤ s.y ∧
      (perChunkIdx chunks r).x * chunks.x ≤ s.x := by
    intro s hs
    obtain ⟨hsr, hflat⟩ := List.mem_filter.mp hs
    have hpc : perChunkIdx chunks s = perChunkIdx chunks r :=
      hinj s hsr r hr (by simpa using hflat)
    have ez : (perChunkIdx chunks r).z = s.z / chunks.z := by rw [← hpc]; rfl
    have ey : (perChunkIdx chunks r).y = s.y / chunks.y := by rw [← hpc]; rfl
    have ex : (perChunkIdx chunks r).x = s.x / chunks.x := by rw [← hpc]; rfl
    rw [ez, ey, ex]
    exact ⟨Nat.div_mul_le_self _ _, Nat.div_mul_le_self _ _, Nat.div_mul_le_self _ _⟩
  have hglen : ∀ s ∈ records.filter
      (fun t => flatChunkIdx shape chunks t = flatChunkIdx shape chunks r),
      s.z = r.z → s.y = r.y → s.x = r.x → s.length ≤ c := by
    intro s hs e1 e2 e3
    obtain ⟨hsr, -⟩ := List.mem_filter.mp hs
    have : s = r := hdist s hsr r hr e1 e2 e3
    rw [this]
    exact hc
  constructor
  · exact read_chunk_into_pad st.1 file _ (perChunkIdx chunks r) _ shape chunks
      h1 h2 hcz hcy hcx r c (hbound r hr) rfl hglow hglen
  · exact read_chunk_into_pad st.2 file _ (perChunkIdx chunks r) _ shape chunks
      h3 h4 hcz hcy hcx r c (hbound r hr) rfl hglow hglen

theorem foldl_chunkStep_fields (file : Nat → Nat → Nat) (shape chunks : Idx3)
    (records : List SpectrumRecord) :
    ∀ (gs : List Nat) (st : ZArray × ZArray),
      (gs.foldl (chunkStep file shape chunks records) st).1.spatialShape
          = st.1.spatialShape ∧
      (gs.foldl (chunkStep file shape chunks records) st).1.spatialChunks
          = st.1.spatialChunks ∧
      (gs.foldl (chunkStep file shape chunks records) st).2.spatialShape
          = st.2.spatialShape ∧
      (gs.foldl (chunkStep file shape chunks records) st).2.spatialChunks
          = st.2.spatialChunks := by
  intro gs
  induction gs with
  | nil => intro st; exact ⟨rfl, rfl, rfl, rfl⟩
  | cons g gs' ih =>
    intro st
    rw [List.foldl_cons]
    obtain ⟨f1, f2, f3, f4⟩ := chunkStep_spatialShape_fst file shape chunks records st g
    obtain ⟨i1, i2, i3, i4⟩ := ih (chunkStep file shape chunks records st g)
    exact ⟨i1.trans f1, i2.trans f2, i3.trans f3, i4.trans f4⟩

/-! ## Claim theorems -/

/-- C2: for every channel extent, item size and starting chunk list with
positive entries (every chunk list `normalize_chunks` can produce), and every
positive `max_chunk_bytes` budget, the shrink loop of `intensity_chunks`
terminates and either returns a chunk shape whose per-chunk byte cost
`shape[0] * chunk_z * chunk_y * chunk_x * item_size` is strictly less than
the budget, or raises `ValueError` (`ChunkBudgetExceeded`); and it raises
exactly when the cost with every spatial chunk dimension driven to `1`
(namely `shape[0] * item_size`) still reaches the budget. -/
theorem intensity_chunks_budget_dichotomy
    (shape0 itemSize maxSize : Nat) (chunks : List Nat)
    (hpos : ∀ v ∈ chunks, 1 ≤ v) (hm : 0 < maxSize) :
    (∃ r, shrinkLoop shape0 itemSize maxSize chunks = some r) ∧
    (∀ ch tr, shrinkLoop shape0 itemSize maxSize chunks = some (.ok (ch, tr)) →
      chunkCost shape0 ch itemSize < maxSize) ∧
    (shrinkLoop shape0 itemSize maxSize chunks = some (.error .valueError) ↔
      maxSize ≤ shape0 * itemSize) := by
  have hm' : 0 < maxSize := hm
  refine ⟨shrinkGo_some shape0 itemSize maxSize (chunks.sum + 1) chunks 1
      (Nat.lt_succ_self _) hpos,
    fun ch tr h => shrinkGo_ok_cost shape0 itemSize maxSize (chunks.sum + 1)
      chunks 1 ch tr h,
    shrinkGo_error_iff shape0 itemSize maxSize (chunks.sum + 1) chunks 1
      (Nat.lt_succ_self _) hpos⟩

/-- Witness for C2 at the concrete instance `shape0 = 4`, `item = 1`,
`budget = 5`, starting chunks `[4, 2, 2, 2]`. -/
theorem intensity_chunks_budget_dichotomy_witness :
    (∃ r, shrinkLoop 4 1 5 [4, 2, 2, 2] = some r) ∧
    (∀ ch tr, shrinkLoop 4 1 5 [4, 2, 2, 2] = some (.ok (ch, tr)) →
      chunkCost 4 ch 1 < 5) ∧
    (shrinkLoop 4 1 5 [4, 2, 2, 2] = some (.error .valueError) ↔ 5 ≤ 4 * 1) :=
  intensity_chunks_budget_dichotomy 4 1 5 [4, 2, 2, 2] (by decide) (by decide)

/-- C3: evaluating the planner at intensity shape `(1, 4, 4, 4)`, explicit
chunk hint `(1, 4, 4, 4)`, item size `1`, budget `5` shows the shrink loop is
not round-robin: the trace of halved axes is `[1, 1, 2, 2]` — the depth axis
(index 1) is halved twice in a row while the height and width axes still
have chunk size `4 > 1` (the source's `idx = min(1, (last_idx + 1) % 4)`
restarts the scan at axis 1 instead of rotating). -/
theorem shrink_trace_consecutive_same_axis :
    intensityChunksHint [1, 4, 4, 4] [some 1, some 4, some 4, some 4] 1 5
        = some (.ok ([1, 1, 1, 4], [1, 1, 2, 2])) ∧
      [1, 1, 2, 2].getD 0 9 = [1, 1, 2, 2].getD 1 9 :=
  ⟨rfl, by decide⟩

/-- C6: evaluating the planner at intensity shape `(8, 1, 1, 4)`, explicit
chunk hint `(8, 1, 1, 4)` (channel axis unsplit), item size `1`, budget `9`:
after halving the width axis the scan start `min(1, (3 + 1) % 4) = 0` lets
the loop halve the channel axis, and the returned plan `[4, 1, 1, 1]` has
channel chunk `4` strictly below the full channel count `8`. -/
theorem shrink_splits_channel_axis :
    intensityChunksHint [8, 1, 1, 4] [some 8, some 1, some 1, some 4] 1 9
        = some (.ok ([4, 1, 1, 1], [3, 0, 3])) ∧
      [4, 1, 1, 1].headD 0 < [8, 1, 1, 4].headD 0 :=
  ⟨rfl, by decide⟩

/-- C7: for positive chunk sizes and records with 0-based coordinates within
the grid bounds, the chunk indexer assigns each record the per-axis chunk
coordinate `(z / chunk_z, y / chunk_y, x / chunk_x)`, and the forward
flattening and the returned reverse mapping are mutually consistent: looking
up a record's flat chunk id yields exactly its per-axis chunk coordinate. -/
theorem chunk_indexer_consistent (shape chunks : Idx3)
    (records : List SpectrumRecord)
    (hcz : 1 ≤ chunks.z) (hcy : 1 ≤ chunks.y) (hcx : 1 ≤ chunks.x)
    (hbound : ∀ r ∈ records, r.z < shape.z ∧ r.y < shape.y ∧ r.x < shape.x) :
    ∀ r ∈ records,
      perChunkIdx chunks r = ⟨r.z / chunks.z, r.y / chunks.y, r.x / chunks.x⟩ ∧
      List.lookup (flatChunkIdx shape chunks r) (flatToIdx shape chunks records)
        = some (perChunkIdx chunks r) := by
  have hcx' : 1 ≤ chunks.x := hcx
  intro r hr
  refine ⟨rfl, ?_⟩
  exact flatToIdx_lookup shape chunks records
    (fun a ha b hb hab =>
      flatChunkIdx_inj shape chunks a b hcz hcy (hbound a ha) (hbound b hb) hab)
    r hr

/-- Witness for C7 on a 2-record dataset over a `(1, 4, 6)` grid with chunk
sizes `(1, 2, 3)`. -/
theorem chunk_indexer_consistent_witness :
    perChunkIdx ⟨1, 2, 3⟩ ⟨5, 3, 0, 10, 20, 7⟩
        = ⟨0 / 1, 3 / 2, 5 / 3⟩ ∧
      List.lookup (flatChunkIdx ⟨1, 4, 6⟩ ⟨1, 2, 3⟩ ⟨5, 3, 0, 10, 20, 7⟩)
        (flatToIdx ⟨1, 4, 6⟩ ⟨1, 2, 3⟩
          [⟨0, 0, 0, 0, 4, 3⟩, ⟨5, 3, 0, 10, 20, 7⟩])
        = some (perChunkIdx ⟨1, 2, 3⟩ ⟨5, 3, 0, 10, 20, 7⟩) :=
  chunk_indexer_consistent ⟨1, 4, 6⟩ ⟨1, 2, 3⟩
    [⟨0, 0, 0, 0, 4, 3⟩, ⟨5, 3, 0, 10, 20, 7⟩]
    (by decide) (by decide) (by decide) (by decide)
    ⟨5, 3, 0, 10, 20, 7⟩ (by decide)

/-- C1: the destination guarantee of `convert` — if the destination exists
the call returns `False` and leaves it untouched; if the destination did not
exist and the call returns `False`, the destination does not exist afterwards
(the directory created during the run was removed by the exit-stack
callback); if the call returns `True`, the destination exists and holds
exactly the store the conversion pipeline produced. -/
theorem convert_destination_atomicity {Store : Type} (dest : Option Store)
    (emptyGroup : Store) (body : Store → Except (PyErr × Store) Store) :
    (∀ s0, dest = some s0 →
      backend_convert dest emptyGroup body = (.ok false, some s0)) ∧
    (∀ d, dest = none →
      backend_convert dest emptyGroup body = (.ok false, d) → d = none) ∧
    (∀ d, backend_convert dest emptyGroup body = (.ok true, d) →
      ∃ s, body emptyGroup = .ok s ∧ d = some s) := by
  refine ⟨?_, ?_, ?_⟩
  · intro s0 h
    subst h
    rfl
  · intro d h heq
    subst h
    unfold backend_convert at heq
    cases hb : body emptyGroup with
    | ok s => rw [hb] at heq; cases heq
    | error p =>
      rw [hb] at heq
      obtain ⟨e, st⟩ := p
      cases e <;> simp_all
  · intro d heq
    cases dest with
    | some s => cases heq
    | none =>
      unfold backend_convert at heq
      cases hb : body emptyGroup with
      | ok s =>
        rw [hb] at heq
        exact ⟨s, rfl, by cases heq; rfl⟩
      | error p =>
        rw [hb] at heq
        obtain ⟨e, st⟩ := p
        cases e <;> cases heq

/-- Witness for C1: the three conclusions at concrete stores over `Nat` —
pre-existing destination `7`; a failing pipeline; a successful pipeline. -/
theorem convert_destination_atomicity_witness :
    backend_convert (some 7) 0 (fun s => Except.ok s) = (.ok false, some 7) ∧
    ((backend_convert (none : Option Nat) 0
        (fun _ => Except.error (.valueError, 3))).2 = none) ∧
    (∃ s, Except.ok (ε := PyErr × Nat) 5 = Except.ok s ∧
      (some 5 : Option Nat) = some s) := by
  refine ⟨(convert_destination_atomicity (some 7) 0 (fun s => Except.ok s)).1 7 rfl,
    ?_, (@convert_destination_atomicity Nat none 0 (fun _ => Except.ok 5)).2.2
      (some 5) rfl⟩
  have := (@convert_destination_atomicity Nat none 0
    (fun _ => Except.error (.valueError, 3))).2.1 none rfl rfl
  rfl

/-- C4 (failure of the claim in the source): when `get_imzml_pair` finds no
imzML/ibd pair, the frontend `ImzMLToZarrConvertor.convert` logs the error
but does not return, and `convert(*pair, dest_path, ...)` with `pair = None`
raises `TypeError` — an exception from the `InputPairNotFound` stage that
propagates past the entry point instead of becoming a `False` result. -/
theorem frontend_convert_missing_pair_raises :
    @frontend_convert Nat none none 0 (fun s => Except.ok s)
      = (.error .typeError, none) := rfl

/-- C9: constructing a converter with non-positive `max_size` raises
`ValueError` before the pipeline steps run: the result is the error paired
with the untouched root store, for every pipeline. -/
theorem convertor_init_rejects_nonpositive_max_size {Store : Type}
    (maxSize : Int) (root : Store)
    (steps : Store → Except (PyErr × Store) Store) (h : maxSize ≤ 0) :
    convertor_construct_and_run maxSize root steps = .error (.valueError, root) := by
  unfold convertor_construct_and_run
  rw [if_pos h]

/-- Witness for C9 at `max_size = -3` over a `Nat` store. -/
theorem convertor_init_rejects_nonpositive_max_size_witness :
    convertor_construct_and_run (-3) (7 : Nat) (fun s => Except.ok s)
      = .error (.valueError, 7) :=
  convertor_init_rejects_nonpositive_max_size (-3) 7 (fun s => Except.ok s)
    (by decide)

/-- Helper for C10: the body raises `BaseException` only when one of its
external operations did; every error the body itself produces is a plain
`Exception`. -/
theorem check_uuid_body_base (inp : UuidCheckInput)
    (h : check_uuid_body inp = .error .baseException) :
    inp.ibdRead = .error .baseException ∨ inp.xmlValue = .error .baseException := by
  unfold check_uuid_body at h
  cases hib : inp.ibdRead with
  | error e =>
    rw [hib] at h
    cases h
    exact Or.inl rfl
  | ok ibd =>
    rw [hib] at h
    cases hxv : inp.xmlValue with
    | error e =>
      rw [hxv] at h
      cases h
      exact Or.inr rfl
    | ok found =>
      rw [hxv] at h
      match found with
      | none => cases h
      | some none => cases h
      | some (some tok) =>
        match tok with
        | [] => cases h
        | c0 :: rest =>
          simp only [] at h
          by_cases hc : c0 = '\x7b'
          · rw [if_pos hc] at h
            by_cases hl : (c0 :: rest).getLast? = some '\x7d'
            · rw [if_pos hl] at h; cases h
            · rw [if_neg hl] at h; cases h
          · rw [if_neg hc] at h; cases h

/-- C10: `check_uuid` is total — as long as its file and XML operations do
not raise a non-`Exception` `BaseException` (the only events outside the
`except` ladder, e.g. `KeyboardInterrupt`), it returns a boolean and never
propagates an exception, and every failure of the body (missing file, empty
or malformed XML, absent or unparsable UUID token) yields `False`. -/
theorem check_uuid_total (inp : UuidCheckInput)
    (h1 : inp.ibdRead ≠ .error .baseException)
    (h2 : inp.xmlValue ≠ .error .baseException) :
    (∃ b, check_uuid inp = .ok b) ∧
    (∀ e, check_uuid_body inp = .error e → check_uuid inp = .ok false) := by
  have hnb : check_uuid_body inp ≠ .error .baseException := fun hb =>
    (check_uuid_body_base inp hb).elim h1 h2
  constructor
  · cases hb : check_uuid_body inp with
    | ok b => exact ⟨b, by unfold check_uuid; rw [hb]⟩
    | error e =>
      refine ⟨false, ?_⟩
      unfold check_uuid
      rw [hb]
      cases e <;> first | rfl | exact absurd hb hnb
  · intro e he
    unfold check_uuid
    rw [he]
    cases e <;> first | rfl | exact absurd he hnb

/-- Witness for C10 at a concrete input whose XML walk finds no UUID element
(the body raises `ValueError`, `check_uuid` returns `False`). -/
theorem check_uuid_total_witness :
    (∃ b, check_uuid ⟨.ok ['a'], .ok none⟩ = .ok b) ∧
    (∀ e, check_uuid_body ⟨.ok ['a'], .ok none⟩ = .error e →
      check_uuid ⟨.ok ['a'], .ok none⟩ = .ok false) :=
  check_uuid_total ⟨.ok ['a'], .ok none⟩ (by simp) (by simp)

/-- C8 counterexample: an array of exactly `8 * 10 ^ 9` bytes — the
disk-copy threshold itself.  The source's `<=` comparison materializes it in
memory, while the claim (strictly below → materialize; at or above →
streamed) requires this size to be streamed. -/
theorem copy_array_at_threshold_materializes :
    (copy_array ⟨[10 ^ 9], 8, fun _ => 0⟩ ⟨[10 ^ 9], 8, fun _ => 0⟩).1
        = .materialize ∧
      CopyArr.nbytes ⟨[10 ^ 9], 8, fun _ => 0⟩ = DISK_COPY_THRESHOLD ∧
      spec_bulk_copy_mode (CopyArr.nbytes ⟨[10 ^ 9], 8, fun _ => 0⟩)
        = .streamed := by
  refine ⟨?_, by decide, ?_⟩ <;> decide

/-- C8 (amended): the bulk copy materializes the whole source in memory
exactly when its byte size is at or *below* the disk-copy threshold and
streams strictly above it; both branches copy the contents, and the choice
depends only on the byte size (two sources of equal byte size get the same
mode; `copy_array` does not receive the layout mode at all). -/
theorem copy_array_mode_amended (source destination source2 destination2 : CopyArr) :
    ((copy_array source destination).1 = .materialize ↔
      source.nbytes ≤ DISK_COPY_THRESHOLD) ∧
    (copy_array source destination).2.cdata = source.cdata ∧
    (source2.nbytes = source.nbytes →
      (copy_array source2 destination2).1 = (copy_array source destination).1) := by
  refine ⟨?_, ?_, ?_⟩
  · by_cases h : source.nbytes ≤ DISK_COPY_THRESHOLD <;> simp [copy_array, h]
  · by_cases h : source.nbytes ≤ DISK_COPY_THRESHOLD <;> simp [copy_array, h]
  · intro he
    by_cases h : source.nbytes ≤ DISK_COPY_THRESHOLD <;>
      simp [copy_array, h, he]

/-- Witness for C8 (amended) on two equal-size sources (`8` bytes each,
different shapes): same copy mode. -/
theorem copy_array_mode_amended_witness :
    (copy_array ⟨[2, 2, 2], 1, fun _ => 0⟩ ⟨[8], 1, fun _ => 0⟩).1
      = (copy_array ⟨[4], 2, fun _ => 0⟩ ⟨[8], 1, fun _ => 0⟩).1 :=
  (copy_array_mode_amended ⟨[4], 2, fun _ => 0⟩ ⟨[8], 1, fun _ => 0⟩
    ⟨[2, 2, 2], 1, fun _ => 0⟩ ⟨[8], 1, fun _ => 0⟩).2.2 (by decide)

/-- C5: for a Processed-mode dataset (depth 1, in-bounds records, at most one
record per pixel, positive spatial chunk sizes, the m/z array sharing the
intensity array's shape and chunking as the source fixes for processed
files), after `read_binary_data` the lengths side array holds each referenced
pixel's true spectrum length at its `(0, 0, y, x)` position, and every
intensity and m/z entry at a channel index at or beyond that pixel's recorded
length equals the fill value `0`. -/
theorem processed_padding_and_lengths (intens mzs zlengths : ZArray)
    (file : Nat → Nat → Nat) (records : List SpectrumRecord)
    (hms : mzs.spatialShape = intens.spatialShape)
    (hmc : mzs.spatialChunks = intens.spatialChunks)
    (hcz : 1 ≤ intens.spatialChunks.z) (hcy : 1 ≤ intens.spatialChunks.y)
    (hcx : 1 ≤ intens.spatialChunks.x)
    (hdepth : intens.spatialShape.z = 1)
    (hbound : ∀ s ∈ records, s.z < intens.spatialShape.z ∧
      s.y < intens.spatialShape.y ∧ s.x < intens.spatialShape.x)
    (hdist : ∀ a ∈ records, ∀ b ∈ records,
      a.z = b.z → a.y = b.y → a.x = b.x → a = b) :
    ∀ r ∈ records,
      (processed_read_binary_data intens mzs zlengths file records).2.2.data 0
          ⟨0, r.y, r.x⟩ = r.length ∧
      ∀ c, r.length ≤ c →
        (processed_read_binary_data intens mzs zlengths file records).1.data c
            ⟨r.z, r.y, r.x⟩ = 0 ∧
        (processed_read_binary_data intens mzs zlengths file records).2.1.data c
            ⟨r.z, r.y, r.x⟩ = 0 := by
  intro r hr
  constructor
  · have hz0 : r.z = 0 := by
      have := (hbound r hr).1
      omega
    show lengthsBufFor records 0 ⟨0, r.y, r.x⟩ = r.length
    have h := lengthsBufFor_eq r records (fun _ _ => 0) hr
      (fun s hs e1 e2 e3 => hdist s hs r hr e1 e2 e3)
    rw [hz0] at h
    exact h
  · intro c hc
    have hmem : flatChunkIdx intens.spatialShape intens.spatialChunks r ∈
        uniqueFirst (records.map (flatChunkIdx intens.spatialShape intens.spatialChunks)) :=
      (uniqueFirst_mem _ _).mpr (List.mem_map_of_mem _ hr)
    obtain ⟨l1, l2, hsplit⟩ := List.append_of_mem hmem
    have hnodup := uniqueFirst_nodup
      (records.map (flatChunkIdx intens.spatialShape intens.spatialChunks))
    rw [hsplit] at hnodup
    have hg2 : flatChunkIdx intens.spatialShape intens.spatialChunks r ∉ l2 :=
      (List.nodup_cons.mp ((List.sublist_append_right l1 _).nodup hnodup)).1
    have hfields := foldl_chunkStep_fields file intens.spatialShape
      intens.spatialChunks records l1 (mzs, intens)
    have hown := chunkStep_at_own file intens.spatialShape intens.spatialChunks
      records (List.foldl (chunkStep file intens.spatialShape intens.spatialChunks records)
        (mzs, intens) l1) r c hcz hcy hcx hbound hdist hr hc
      (hfields.1.trans hms) (hfields.2.1.trans hmc) hfields.2.2.1 hfields.2.2.2
    have hstepfields := chunkStep_spatialShape_fst file intens.spatialShape
      intens.spatialChunks records
      (List.foldl (chunkStep file intens.spatialShape intens.spatialChunks records)
        (mzs, intens) l1)
      (flatChunkIdx intens.spatialShape intens.spatialChunks r)
    have hpres := foldl_chunkStep_preserve file intens.spatialShape
      intens.spatialChunks records r c hcz hcy hcx (hbound r hr) l2
      (chunkStep file intens.spatialShape intens.spatialChunks records
        (List.foldl (chunkStep file intens.spatialShape intens.spatialChunks records)
          (mzs, intens) l1)
        (flatChunkIdx intens.spatialShape intens.spatialChunks r))
      (fun g hg he => hg2 (he ▸ hg))
      (hstepfields.1.trans (hfields.1.trans hms))
      (hstepfields.2.1.trans (hfields.2.1.trans hmc))
      (hstepfields.2.2.1.trans hfields.2.2.1)
      (hstepfields.2.2.2.trans hfields.2.2.2)
    constructor
    · show (List.foldl (chunkStep file intens.spatialShape intens.spatialChunks records)
          (mzs, intens)
          (uniqueFirst (records.map (flatChunkIdx intens.spatialShape intens.spatialChunks)))).2.data
          c ⟨r.z, r.y, r.x⟩ = 0
      rw [hsplit, List.foldl_append, List.foldl_cons]
      exact hpres.2.trans hown.2
    · show (List.foldl (chunkStep file intens.spatialShape intens.spatialChunks records)
          (mzs, intens)
          (uniqueFirst (records.map (flatChunkIdx intens.spatialShape intens.spatialChunks)))).1.data
          c ⟨r.z, r.y, r.x⟩ = 0
      rw [hsplit, List.foldl_append, List.foldl_cons]
      exact hpres.1.trans hown.1

/-- Witness for C5 on a concrete 2-pixel processed dataset over a
`(1, 2, 2)` grid with chunk sizes `(1, 2, 2)`: pixel `(0, 0)` has spectrum
length `5` and pixel `(1, 1)` has length `2`. -/
theorem processed_padding_and_lengths_witness :
    ((processed_read_binary_data ⟨5, ⟨1, 2, 2⟩, ⟨1, 2, 2⟩, fun _ _ => 0⟩
        ⟨5, ⟨1, 2, 2⟩, ⟨1, 2, 2⟩, fun _ _ => 0⟩
        ⟨1, ⟨1, 2, 2⟩, ⟨1, 2, 2⟩, fun _ _ => 0⟩
        (fun o i => o + i + 100)
        [⟨0, 0, 0, 0, 50, 5⟩, ⟨1, 1, 0, 10, 60, 2⟩]).2.2.data 0
          ⟨0, 1, 1⟩ = 2 ∧
      ∀ c, 2 ≤ c →
        (processed_read_binary_data ⟨5, ⟨1, 2, 2⟩, ⟨1, 2, 2⟩, fun _ _ => 0⟩
            ⟨5, ⟨1, 2, 2⟩, ⟨1, 2, 2⟩, fun _ _ => 0⟩
            ⟨1, ⟨1, 2, 2⟩, ⟨1, 2, 2⟩, fun _ _ => 0⟩
            (fun o i => o + i + 100)
            [⟨0, 0, 0, 0, 50, 5⟩, ⟨1, 1, 0, 10, 60, 2⟩]).1.data c
            ⟨0, 1, 1⟩ = 0 ∧
          (processed_read_binary_data ⟨5, ⟨1, 2, 2⟩, ⟨1, 2, 2⟩, fun _ _ => 0⟩
            ⟨5, ⟨1, 2, 2⟩, ⟨1, 2, 2⟩, fun _ _ => 0⟩
            ⟨1, ⟨1, 2, 2⟩, ⟨1, 2, 2⟩, fun _ _ => 0⟩
            (fun o i => o + i + 100)
            [⟨0, 0, 0, 0, 50, 5⟩, ⟨1, 1, 0, 10, 60, 2⟩]).2.1.data c
            ⟨0, 1, 1⟩ = 0) :=
  processed_padding_and_lengths ⟨5, ⟨1, 2, 2⟩, ⟨1, 2, 2⟩, fun _ _ => 0⟩
    ⟨5, ⟨1, 2, 2⟩, ⟨1, 2, 2⟩, fun _ _ => 0⟩
    ⟨1, ⟨1, 2, 2⟩, ⟨1, 2, 2⟩, fun _ _ => 0⟩
    (fun o i => o + i + 100)
    [⟨0, 0, 0, 0, 50, 5⟩, ⟨1, 1, 0, 10, 60, 2⟩]
    rfl rfl (by decide) (by decide) (by decide) rfl (by decide) (by decide)
    ⟨1, 1, 0, 10, 60, 2⟩ (by decide)

end PimsMsi
